import Mathlib

set_option maxHeartbeats 1000000
set_option maxRecDepth 4000

/-
Verification development for the recitation scoring engine of
`app/services/analysis_service.py` (class `RecitationAnalysisService`).

Modelling conventions:
* Python floats are modelled exactly as rationals (`ℚ`).  Float literals of
  the source (`0.5`, `0.65`, `0.2`, `0.3`, `0.7`, `1e-6`, ...) become the
  corresponding rational constants; the float rounding of the literals
  themselves is immaterial to the claims checked here.
* Python dicts are modelled as association lists where an insertion prepends
  its entry and a lookup takes the most recently inserted entry, which is
  exactly the overwrite/get semantics the service relies on.
* `ZeroDivisionError` (the one failure mode reachable inside the scoring
  code, `len(words) / total_duration` with a zero duration) is modelled by
  returning `none` from the fluency computation and hence from the report.
* Python `str.lower` / `\w` / whitespace are modelled on the ASCII fragment
  (plus the CJK ideograph range the code names explicitly); every concrete
  input used below is ASCII, where the model agrees with Python exactly.
-/

/-- Python dict assignment `m[k] = v`, modelled by prepending. -/
def dictInsert {κ α : Type} (m : List (κ × α)) (k : κ) (v : α) : List (κ × α) :=
  (k, v) :: m

/-- Python `m.get(k, d)`: the most recently inserted binding of `k`, else `d`. -/
def dGet {κ α : Type} [BEq κ] (m : List (κ × α)) (k : κ) (d : α) : α :=
  match m.find? (fun p => p.1 == k) with
  | some p => p.2
  | none => d

/-- Python `range(s, s+len)` as a list of naturals. -/
def idxRange : ℕ → ℕ → List ℕ
  | _, 0 => []
  | s, n + 1 => s :: idxRange (s + 1) n

/-! ## difflib.SequenceMatcher (stdlib dependency of `_calculate_word_similarity`)

The service calls `SequenceMatcher(None, w1, w2).ratio()`.  `isjunk` is
`None`, so the junk set `bjunk` is empty and the two junk-extension loops of
`find_longest_match` can never fire; they are therefore omitted.  The
autojunk "popular element" filter (active only when `len(b) >= 200`) is
embedded faithfully in `chainB`. -/

/-- One step of difflib `__chain_b`: `b2j.setdefault(elt, []).append(i)`. -/
def b2jAdd (m : List (Char × List ℕ)) (c : Char) (i : ℕ) : List (Char × List ℕ) :=
  match m with
  | [] => [(c, [i])]
  | p :: rest => if p.1 == c then (p.1, p.2 ++ [i]) :: rest else p :: b2jAdd rest c i

def b2jBuildAux : List Char → ℕ → List (Char × List ℕ) → List (Char × List ℕ)
  | [], _, m => m
  | c :: rest, i, m => b2jBuildAux rest (i + 1) (b2jAdd m c i)

/-- difflib `__chain_b`: index lists per element of `b`, with the autojunk
popularity filter (`len(b) >= 200`, threshold `n // 100 + 1`). -/
def chainB (b : List Char) : List (Char × List ℕ) :=
  let m := b2jBuildAux b 0 []
  let n := b.length
  if 200 ≤ n then m.filter (fun p => decide (p.2.length ≤ n / 100 + 1)) else m

/-- Inner `for j in b2j.get(a[i], nothing)` loop of `find_longest_match`.
State: remaining index list, the accumulating `newj2len`, and the best
`(besti, bestj, bestsize)` triple.  `j2len.get(j-1, 0)` is guarded by
`j = 0` because the Python key `-1` is never present. -/
def flmInner (i blo bhi : ℕ) (j2len : List (ℕ × ℕ)) :
    List ℕ → List (ℕ × ℕ) → ℕ × ℕ × ℕ → List (ℕ × ℕ) × (ℕ × ℕ × ℕ)
  | [], acc, best => (acc, best)
  | j :: rest, acc, best =>
    if j < blo then flmInner i blo bhi j2len rest acc best
    else if bhi ≤ j then (acc, best)
    else
      let k := (if j = 0 then 0 else dGet j2len (j - 1) 0) + 1
      let best2 := if best.2.2 < k then (i + 1 - k, j + 1 - k, k) else best
      flmInner i blo bhi j2len rest ((j, k) :: acc) best2

/-- Outer `for i in range(alo, ahi)` loop of `find_longest_match`. -/
def flmMain (a : List Char) (b2j : List (Char × List ℕ)) (blo bhi : ℕ) :
    List ℕ → List (ℕ × ℕ) → ℕ × ℕ × ℕ → ℕ × ℕ × ℕ
  | [], _, best => best
  | i :: rest, j2len, best =>
    let r := flmInner i blo bhi j2len (dGet b2j (a.getD i default) []) [] best
    flmMain a b2j blo bhi rest r.1 r.2

/-- First extension loop: extend the best block downward over equal
(non-junk) elements.  Fuel bounds the iteration count; it is always called
with fuel `besti`, which dominates the possible number of decrements. -/
def extendLow (a b : List Char) (alo blo : ℕ) : ℕ → ℕ × ℕ × ℕ → ℕ × ℕ × ℕ
  | 0, best => best
  | fuel + 1, (besti, bestj, size) =>
    if alo < besti && blo < bestj &&
        (a.getD (besti - 1) default == b.getD (bestj - 1) default) then
      extendLow a b alo blo fuel (besti - 1, bestj - 1, size + 1)
    else (besti, bestj, size)

/-- Second extension loop: extend the best block upward over equal
(non-junk) elements.  Called with fuel `ahi`, dominating the iteration count. -/
def extendHigh (a b : List Char) (ahi bhi : ℕ) : ℕ → ℕ × ℕ × ℕ → ℕ × ℕ × ℕ
  | 0, best => best
  | fuel + 1, (besti, bestj, size) =>
    if besti + size < ahi && bestj + size < bhi &&
        (a.getD (besti + size) default == b.getD (bestj + size) default) then
      extendHigh a b ahi bhi fuel (besti, bestj, size + 1)
    else (besti, bestj, size)

/-- difflib `find_longest_match(alo, ahi, blo, bhi)` (with `isjunk = None`,
so the junk-extension loops are identically skipped). -/
def findLongestMatch (a b : List Char) (b2j : List (Char × List ℕ))
    (alo ahi blo bhi : ℕ) : ℕ × ℕ × ℕ :=
  let best := flmMain a b2j blo bhi (idxRange alo (ahi - alo)) [] (alo, blo, 0)
  let best2 := extendLow a b alo blo best.1 best
  extendHigh a b ahi bhi ahi best2

/-- Total size of the matching blocks found by difflib
`get_matching_blocks`, i.e. `sum(k for (i, j, k) in blocks)`, by the same
recursive decomposition (the queue order of the Python code does not affect
the sum).  The fuel dominates the recursion depth: every recursive call
strictly shrinks `(ahi - alo) + (bhi - blo)` (see `findLongestMatch_bounds`),
so the top-level fuel `a.length + b.length + 1` never runs out. -/
def matchTotalF (a b : List Char) (b2j : List (Char × List ℕ)) :
    ℕ → ℕ → ℕ → ℕ → ℕ → ℕ
  | 0, _, _, _, _ => 0
  | fuel + 1, alo, ahi, blo, bhi =>
    let r := findLongestMatch a b b2j alo ahi blo bhi
    if r.2.2 = 0 then 0
    else
      r.2.2 +
        (if alo < r.1 && blo < r.2.1 then
          matchTotalF a b b2j fuel alo r.1 blo r.2.1 else 0) +
        (if r.1 + r.2.2 < ahi && r.2.1 + r.2.2 < bhi then
          matchTotalF a b b2j fuel (r.1 + r.2.2) ahi (r.2.1 + r.2.2) bhi else 0)

/-- The total `M = sum(block sizes)` for the whole pair of sequences. -/
def blockMatchTotal (a b : List Char) : ℕ :=
  matchTotalF a b (chainB b) (a.length + b.length + 1) 0 a.length 0 b.length

/-- difflib `ratio()` together with `_calculate_ratio`:
`2.0 * matches / length` when `length` is nonzero, else `1.0`. -/
def simRatio (a b : List Char) : ℚ :=
  if a.length + b.length = 0 then 1
  else 2 * (blockMatchTotal a b : ℚ) / ((a.length : ℚ) + (b.length : ℚ))

/-- Python `s.lower()` (ASCII model). -/
def lowerStr (s : String) : String :=
  String.mk (s.data.map Char.toLower)

/-- The function `_calculate_word_similarity`: exact equality short-circuits to `1.0`,
otherwise `SequenceMatcher(None, word1.lower(), word2.lower()).ratio()`. -/
def calcWordSimilarity (w1 w2 : String) : ℚ :=
  if w1 = w2 then 1
  else simRatio (lowerStr w1).data (lowerStr w2).data

/-! ## Data model (`app/schemas/analysis.py`, the fields used by the engine) -/

/-- One recognized word with timestamps (`ASRWord`).  The Python field
`end` is called `stop` here because `end` is a Lean keyword. -/
structure ASRWord where
  word : String
  start : ℚ
  stop : ℚ
  deriving DecidableEq

/-- One alignment record (`WordAlignment`). -/
structure WordAlignment where
  expected_word : String
  actual_word : String
  similarity : ℚ
  start_time : ℚ
  end_time : ℚ
  is_match : Bool
  deriving DecidableEq

/-- Per-word detail entry (`WordScore`). -/
structure WordScore where
  word : String
  expected : String
  actual : String
  score : ℚ
  start_time : ℚ
  end_time : ℚ
  is_correct : Bool
  deriving DecidableEq

/-- The four reported scores (`RecitationScores`). -/
structure RecitationScores where
  accuracy_score : ℚ
  fluency_score : ℚ
  pronunciation_score : ℚ
  overall_score : ℚ
  deriving DecidableEq

/-- The analysis report (`RecitationAnalysis`; `phoneme_details` is the
constant `None` in the source and is omitted). -/
structure RecitationAnalysis where
  recognized_text : String
  word_count : ℕ
  correct_words : ℕ
  word_accuracy : ℚ
  scores : RecitationScores
  word_details : List WordScore
  mispronounced_words : List String
  missing_words : List String
  extra_words : List String
  deriving DecidableEq

/-- The `PreprocessedText` pair of the service. -/
structure PreprocessedText where
  processed_words : List String
  original_mapping : List (String × String)
  deriving DecidableEq

/-! ## Configuration (`app/core/config.py`) -/

def minWordSimilarity : ℚ := 13 / 20
def pronunciationAccuracyWeight : ℚ := 1 / 5
def fluencyWeight : ℚ := 3 / 10
def accuracyWeight : ℚ := 1 / 2

/-- The `1e-6` backtracking tolerance of `_align_words`. -/
def alignTol : ℚ := 1 / 1000000

/-! ## Text preprocessing (`_preprocess_text`, `_is_chinese_text`) -/

/-- A character kept by the punctuation-stripping regex substitution: word
characters (ASCII model of the regex word class), whitespace, or CJK
ideographs. -/
def keepChar (c : Char) : Bool :=
  c.isAlphanum || c == '_' || c.isWhitespace ||
    (decide (0x4e00 ≤ c.toNat) && decide (c.toNat ≤ 0x9fff))

/-- Punctuation stripping followed by `.lower()`, as applied to each
original token. -/
def normToken (w : String) : String :=
  String.mk ((w.data.filter keepChar).map Char.toLower)

/-- Truthiness of `s.strip()`: `s` contains a non-whitespace character. -/
def hasNonWs (s : String) : Bool :=
  s.data.any (fun c => !c.isWhitespace)

/-- Python `text.split()` (split on whitespace runs, no empty tokens). -/
def splitWsAux : List Char → List Char → List String
  | [], cur => if cur.isEmpty then [] else [String.mk cur.reverse]
  | c :: rest, cur =>
    if c.isWhitespace then
      if cur.isEmpty then splitWsAux rest []
      else String.mk cur.reverse :: splitWsAux rest []
    else splitWsAux rest (c :: cur)

/-- The predicate `_is_chinese_text`: CJK characters exceed half of the non-whitespace
characters. -/
def isChineseText (t : String) : Bool :=
  let total := (t.data.filter (fun c => !c.isWhitespace)).length
  let cc := (t.data.filter
    (fun c => decide (0x4e00 ≤ c.toNat) && decide (c.toNat ≤ 0x9fff))).length
  if 0 < total then decide ((total : ℚ) * (1 / 2) < (cc : ℚ)) else false

/-- The original (surface-form) token list of `_preprocess_text`:
per-character for Chinese text, whitespace-split otherwise, each filtered
by `word.strip()` truthiness. -/
def originalTokens (t : String) : List String :=
  let ws0 :=
    if isChineseText t then
      (t.data.filter (fun c => !c.isWhitespace)).map (fun c => String.mk [c])
    else splitWsAux t.data []
  ws0.filter hasNonWs

/-- The function `_preprocess_text`: normalize each original token; keep it (and record
`original_mapping[processed] = original`, overwriting) iff the normalized
form is non-blank. -/
def preprocessText (t : String) : PreprocessedText :=
  (originalTokens t).foldl
    (fun acc ow =>
      let pw := normToken ow
      if hasNonWs pw then
        ⟨acc.processed_words ++ [pw], dictInsert acc.original_mapping pw ow⟩
      else acc)
    ⟨[], []⟩

/-! ## Timing index (the `word_timestamps` dict of `_align_words`) -/

/-- Cleaning applied to an ASR word before keying the timestamp dict:
lower-case, then strip the characters the punctuation regex removes. -/
def cleanAsrWord (s : String) : String :=
  String.mk ((s.data.map Char.toLower).filter keepChar)

/-- The `word_timestamps` dict: built in list order, so a later occurrence
of the same normalized form overwrites an earlier one. -/
def buildTimestamps (ws : List ASRWord) : List (String × ℚ × ℚ) :=
  ws.foldl (fun m w => dictInsert m (cleanAsrWord w.word) (w.start, w.stop)) []

/-- Lookup in the timestamp dict with the zero-pair default. -/
def tsGet (ts : List (String × ℚ × ℚ)) (w : String) : ℚ × ℚ :=
  dGet ts w (0, 0)

/-! ## Alignment (`_align_words`) -/

/-- The DP table of `_align_words`:
`dp[0][*] = dp[*][0] = 0` and
`dp[i][j] = max(dp[i-1][j-1] + sim, dp[i-1][j] - 0.5, dp[i][j-1] - 0.5)`.
Defined row by row so that it is structurally recursive (the Python code
fills an `(N+1) × (M+1)` array; this function agrees with it on that
rectangle and extends it harmlessly outside). -/
def dpRow (ew aw : List String) (prev : ℕ → ℚ) (i : ℕ) : ℕ → ℚ
  | 0 => 0
  | j + 1 =>
    let s := calcWordSimilarity (ew.getD i "") (aw.getD j "")
    max (prev j + s) (max (prev (j + 1) - 1 / 2) (dpRow ew aw prev i j - 1 / 2))

def dpFun (ew aw : List String) : ℕ → ℕ → ℚ
  | 0 => fun _ => 0
  | i + 1 => fun j => dpRow ew aw (dpFun ew aw i) i j

/-- The backtracking loop of `_align_words`, producing the records in the
order Python appends them (from `(N, M)` down; the caller reverses).  The
fuel dominates `i + j`, which shrinks at every step, so it never runs out
when called with fuel `i + j`. -/
def backtrackAux (ew aw : List String) (ts : List (String × ℚ × ℚ)) :
    ℕ → ℕ → ℕ → List WordAlignment
  | 0, _, _ => []
  | _ + 1, 0, 0 => []
  | fuel + 1, i + 1, 0 =>
    ⟨ew.getD i "", "", 0, 0, 0, false⟩ :: backtrackAux ew aw ts fuel i 0
  | fuel + 1, 0, j + 1 =>
    let aword := aw.getD j ""
    let t := tsGet ts aword
    ⟨"", aword, 0, t.1, t.2, false⟩ :: backtrackAux ew aw ts fuel 0 j
  | fuel + 1, i + 1, j + 1 =>
    let eword := ew.getD i ""
    let aword := aw.getD j ""
    let s := calcWordSimilarity eword aword
    let t := tsGet ts aword
    if |dpFun ew aw (i + 1) (j + 1) - (dpFun ew aw i j + s)| < alignTol then
      ⟨eword, aword, s, t.1, t.2, decide (minWordSimilarity ≤ s)⟩ ::
        backtrackAux ew aw ts fuel i j
    else if |dpFun ew aw (i + 1) (j + 1) - (dpFun ew aw i (j + 1) - 1 / 2)| < alignTol then
      ⟨eword, "", 0, 0, 0, false⟩ :: backtrackAux ew aw ts fuel i (j + 1)
    else
      ⟨"", aword, 0, t.1, t.2, false⟩ :: backtrackAux ew aw ts fuel (i + 1) j

/-- The function `_align_words`: build the timestamp dict, backtrack from `(N, M)`,
and reverse into forward order. -/
def alignWords (ew aw : List String) (ws : List ASRWord) : List WordAlignment :=
  (backtrackAux ew aw (buildTimestamps ws) (ew.length + aw.length)
    ew.length aw.length).reverse

/-! ## Scores (`_calculate_pronunciation_score`, `_calculate_pause_score`,
`_calculate_fluency_score`, `_calculate_analysis_scores`) -/

/-- Python truthiness `alignment.expected_word and alignment.actual_word`. -/
def isBothB (r : WordAlignment) : Bool :=
  r.expected_word != "" && r.actual_word != ""

/-- Truthiness of `expected_word and not actual_word` (a missing word). -/
def isDelB (r : WordAlignment) : Bool :=
  r.expected_word != "" && r.actual_word == ""

/-- Truthiness of `not expected_word and actual_word` (an extra word). -/
def isInsB (r : WordAlignment) : Bool :=
  r.expected_word == "" && r.actual_word != ""

/-- The function `_calculate_pronunciation_score`. -/
def calcPronunciationScore (al : List WordAlignment) : ℚ :=
  if al.isEmpty then 0
  else
    let m := al.filter isBothB
    if m.isEmpty then 0
    else min (((m.map (fun r => r.similarity)).sum / (m.length : ℚ)) * 10) 10

/-- The function `_calculate_pause_score`. -/
def calcPauseScore (ws : List ASRWord) : ℚ :=
  if ws.length < 2 then 8
  else
    let intervals := (ws.zip ws.tail).map (fun p => p.2.start - p.1.stop)
    let avg := intervals.sum / (intervals.length : ℚ)
    let lp := (intervals.filter (fun x => decide ((1 : ℚ) < x))).length
    if avg < 1 / 2 ∧ lp = 0 then 10
    else if avg < 1 ∧ lp ≤ 2 then 8
    else if avg < 2 ∧ lp ≤ 5 then 6
    else max (4 - (lp : ℚ) * (1 / 2)) 1

/-- The function `_calculate_fluency_score`.  Returns `none` exactly when the Python
code raises `ZeroDivisionError`: a non-empty word list whose total span
`words[-1].end - words[0].start` is zero. -/
def calcFluencyScore (ws : List ASRWord) : Option ℚ :=
  match ws with
  | [] => some 5
  | w0 :: rest =>
    let all := w0 :: rest
    let total := (all.getLastD w0).stop - w0.start
    if total = 0 then none
    else
      let wpm := ((all.length : ℚ) / total) * 60
      let speed :=
        if 120 ≤ wpm ∧ wpm ≤ 180 then 10
        else max (10 - min |wpm - 120| |wpm - 180| / 20) 1
      some (min (speed * (7 / 10) + calcPauseScore all * (3 / 10)) 10)

/-- Rounding to two decimals, `round(x, 2)`.  Mathlib `round` rounds exact
halves up whereas Python rounds them to even; no value this file evaluates
is an exact half. -/
def round2 (x : ℚ) : ℚ :=
  ((round (x * 100) : ℤ) : ℚ) / 100

/-- One iteration of the detail loop of `_calculate_analysis_scores`,
giving the `word_details` entry (if any) the record contributes. -/
def mkWordDetail (ep rp : PreprocessedText) (r : WordAlignment) : Option WordScore :=
  if isBothB r then
    let oe := dGet ep.original_mapping r.expected_word r.expected_word
    let oa := dGet rp.original_mapping r.actual_word r.actual_word
    some ⟨oe, oe, oa, r.similarity * 100, r.start_time, r.end_time, r.is_match⟩
  else if isDelB r then
    let oe := dGet ep.original_mapping r.expected_word r.expected_word
    some ⟨oe, oe, "", 0, 0, 0, false⟩
  else none

/-- The function `_calculate_analysis_scores`.  The four categorized lists are built by
one pass in Python; building each by its own `filterMap` yields the same
lists in the same order. -/
def calcAnalysisScores (ep rp : PreprocessedText) (al : List WordAlignment)
    (recognizedText : String) (ws : List ASRWord) : Option RecitationAnalysis :=
  let total := ep.processed_words.length
  let correct := (al.filter (fun r => r.is_match)).length
  let wordAccuracy : ℚ :=
    if 0 < total then ((correct : ℚ) / (total : ℚ)) * 100 else 0
  let details := al.filterMap (mkWordDetail ep rp)
  let mispronounced := al.filterMap (fun r =>
    if isBothB r && !r.is_match then
      some (dGet ep.original_mapping r.expected_word r.expected_word) else none)
  let missing := al.filterMap (fun r =>
    if isDelB r then
      some (dGet ep.original_mapping r.expected_word r.expected_word) else none)
  let extra := al.filterMap (fun r =>
    if isInsB r then
      some (dGet rp.original_mapping r.actual_word r.actual_word) else none)
  let pron := calcPronunciationScore al
  match calcFluencyScore ws with
  | none => none
  | some fluency =>
    let accuracy := wordAccuracy / 10
    let overall := pron * pronunciationAccuracyWeight +
      fluency * fluencyWeight + accuracy * accuracyWeight
    some
      { recognized_text := recognizedText
        word_count := total
        correct_words := correct
        word_accuracy := round2 wordAccuracy
        scores :=
          { accuracy_score := round2 accuracy
            fluency_score := round2 fluency
            pronunciation_score := round2 pron
            overall_score := round2 overall }
        word_details := details
        mispronounced_words := mispronounced
        missing_words := missing
        extra_words := extra }

/-- The pure part of `analyze_recitation`, once the transcript and the
timestamped words have been obtained from ASR: preprocess both texts,
align, and score. -/
def computeReport (originalText transcriptText : String)
    (ws : List ASRWord) : Option RecitationAnalysis :=
  let ep := preprocessText originalText
  let rp := preprocessText transcriptText
  let al := alignWords ep.processed_words rp.processed_words ws
  calcAnalysisScores ep rp al transcriptText ws

/-! ## Generic helper lemmas -/

theorem dGet_cases {κ α : Type} [BEq κ] (m : List (κ × α)) (k : κ) (d : α) :
    dGet m k d = d ∨ ∃ p, p ∈ m ∧ (p.1 == k) = true ∧ dGet m k d = p.2 := by
  unfold dGet
  cases hf : m.find? (fun p => p.1 == k) with
  | none => exact Or.inl rfl
  | some p =>
    have hps := List.find?_some hf
    exact Or.inr ⟨p, List.mem_of_find?_eq_some hf, hps, rfl⟩

theorem listSum_nonneg (l : List ℚ) (h : ∀ x ∈ l, 0 ≤ x) : 0 ≤ l.sum := by
  induction l with
  | nil => simp
  | cons a t ih =>
    simp only [List.sum_cons]
    have ha := h a (by simp)
    have ht := ih (fun x hx => h x (by simp [hx]))
    linarith

theorem listSum_le_length (l : List ℚ) (h : ∀ x ∈ l, x ≤ 1) : l.sum ≤ l.length := by
  induction l with
  | nil => simp
  | cons a t ih =>
    simp only [List.sum_cons, List.length_cons]
    have ha := h a (by simp)
    have ht := ih (fun x hx => h x (by simp [hx]))
    push_cast
    linarith

theorem length_filterMap_eq_countP {α β : Type} (f : α → Option β) (l : List α) :
    (l.filterMap f).length = l.countP (fun a => (f a).isSome) := by
  induction l with
  | nil => simp
  | cons a t ih =>
    cases hf : f a with
    | none => simp [List.filterMap_cons, hf, List.countP_cons, ih]
    | some b => simp [List.filterMap_cons, hf, List.countP_cons, ih]

/-! ## Bounds for the difflib embedding -/

/-- Invariant of the best triple `(besti, bestj, bestsize)` during
`find_longest_match`. -/
def flmBnd (alo ahi blo bhi : ℕ) (t : ℕ × ℕ × ℕ) : Prop :=
  alo ≤ t.1 ∧ blo ≤ t.2.1 ∧ (t.2.2 = 0 → t.1 = alo ∧ t.2.1 = blo) ∧
    (t.2.2 ≠ 0 → t.1 + t.2.2 ≤ ahi ∧ t.2.1 + t.2.2 ≤ bhi)

/-- Invariant of the `j2len` dictionary when the outer loop is about to
process index `i`: keys lie in `[blo, bhi)`, a value is at most the
key-chain length from `blo` and at most the number of processed rows. -/
def j2lenInv (alo blo bhi i : ℕ) (m : List (ℕ × ℕ)) : Prop :=
  ∀ p ∈ m, blo ≤ p.1 ∧ p.1 < bhi ∧ p.2 + blo ≤ p.1 + 1 ∧ alo + p.2 ≤ i

theorem flmInner_inv {alo ahi i blo bhi : ℕ} {j2len : List (ℕ × ℕ)}
    (hj : j2lenInv alo blo bhi i j2len) (hi : alo ≤ i) (hia : i < ahi) :
    ∀ js acc best, j2lenInv alo blo bhi (i + 1) acc → flmBnd alo ahi blo bhi best →
      j2lenInv alo blo bhi (i + 1) (flmInner i blo bhi j2len js acc best).1 ∧
      flmBnd alo ahi blo bhi (flmInner i blo bhi j2len js acc best).2 := by
  intro js
  induction js with
  | nil => intro acc best hacc hbest; exact ⟨hacc, hbest⟩
  | cons j rest ih =>
    intro acc best hacc hbest
    by_cases h1 : j < blo
    · simpa only [flmInner, if_pos h1] using ih acc best hacc hbest
    · by_cases h2 : bhi ≤ j
      · simpa only [flmInner, if_neg h1, if_pos h2] using ⟨hacc, hbest⟩
      · have hjlo : blo ≤ j := Nat.le_of_not_lt h1
        have hjhi : j < bhi := Nat.lt_of_not_le h2
        simp only [flmInner, if_neg h1, if_neg h2]
        have hk : ((if j = 0 then 0 else dGet j2len (j - 1) 0) + 1) + blo ≤ j + 1 ∧
            alo + ((if j = 0 then 0 else dGet j2len (j - 1) 0) + 1) ≤ i + 1 := by
          split
          · omega
          · next hj0 =>
            rcases dGet_cases j2len (j - 1) 0 with hd | ⟨p, hpm, hpk, hpv⟩
            · rw [hd]
              omega
            · obtain ⟨hm1, hm2, hm3, hm4⟩ := hj p hpm
              have hk1 : p.1 = j - 1 := by simpa using hpk
              rw [hpv]
              omega
        refine ih _ _ ?_ ?_
        · intro p hp
          rcases List.mem_cons.mp hp with hp | hp
          · subst hp
            refine ⟨?_, ?_, ?_, ?_⟩ <;> dsimp only <;> omega
          · exact hacc p hp
        · by_cases hcmp : best.2.2 < (if j = 0 then 0 else dGet j2len (j - 1) 0) + 1
          · simp only [if_pos hcmp]
            obtain ⟨hk1, hk2⟩ := hk
            refine ⟨?_, ?_, ?_, ?_⟩
            · dsimp only
              omega
            · dsimp only
              omega
            · dsimp only
              intro hfalse
              exact absurd hfalse (by omega)
            · dsimp only
              intro _
              constructor <;> omega
          · simpa only [if_neg hcmp] using hbest

theorem flmMain_inv (a : List Char) (b2j : List (Char × List ℕ))
    (alo blo bhi ahi : ℕ) :
    ∀ len i j2len best, alo ≤ i → i + len ≤ ahi →
      j2lenInv alo blo bhi i j2len → flmBnd alo ahi blo bhi best →
      flmBnd alo ahi blo bhi (flmMain a b2j blo bhi (idxRange i len) j2len best) := by
  intro len
  induction len with
  | zero => intro i j2len best _ _ _ hbest; exact hbest
  | succ len ih =>
    intro i j2len best hi hlen hj hbest
    have hia : i < ahi := by omega
    have hstep := flmInner_inv hj hi hia (dGet b2j (a.getD i default) []) []
      best (by intro p hp; simp at hp) hbest
    exact ih (i + 1) _ _ (by omega) (by omega) hstep.1 hstep.2

theorem extendLow_bnd (a b : List Char) (alo blo ahi bhi : ℕ) :
    ∀ fuel best, flmBnd alo ahi blo bhi best →
      flmBnd alo ahi blo bhi (extendLow a b alo blo fuel best) := by
  intro fuel
  induction fuel with
  | zero => intro best hbest; exact hbest
  | succ fuel ih =>
    intro best hbest
    obtain ⟨bi, bj, sz⟩ := best
    replace hbest : alo ≤ bi ∧ blo ≤ bj ∧ (sz = 0 → bi = alo ∧ bj = blo) ∧
        (sz ≠ 0 → bi + sz ≤ ahi ∧ bj + sz ≤ bhi) := hbest
    obtain ⟨hb1, hb2, hb3, hb4⟩ := hbest
    simp only [extendLow]
    split
    · next hcond =>
      simp only [Bool.and_eq_true, decide_eq_true_eq] at hcond
      obtain ⟨⟨hc1, hc2⟩, _⟩ := hcond
      apply ih
      by_cases hsz : sz = 0
      · obtain ⟨he1, he2⟩ := hb3 hsz
        exact ⟨by dsimp only; omega, by dsimp only; omega,
          by dsimp only; omega, fun _ => ⟨by dsimp only; omega, by dsimp only; omega⟩⟩
      · obtain ⟨he1, he2⟩ := hb4 hsz
        exact ⟨by dsimp only; omega, by dsimp only; omega,
          by dsimp only; omega, fun _ => ⟨by dsimp only; omega, by dsimp only; omega⟩⟩
    · exact ⟨hb1, hb2, hb3, hb4⟩

theorem extendHigh_bnd (a b : List Char) (alo blo ahi bhi : ℕ) :
    ∀ fuel best, flmBnd alo ahi blo bhi best →
      flmBnd alo ahi blo bhi (extendHigh a b ahi bhi fuel best) := by
  intro fuel
  induction fuel with
  | zero => intro best hbest; exact hbest
  | succ fuel ih =>
    intro best hbest
    obtain ⟨bi, bj, sz⟩ := best
    replace hbest : alo ≤ bi ∧ blo ≤ bj ∧ (sz = 0 → bi = alo ∧ bj = blo) ∧
        (sz ≠ 0 → bi + sz ≤ ahi ∧ bj + sz ≤ bhi) := hbest
    obtain ⟨hb1, hb2, hb3, hb4⟩ := hbest
    simp only [extendHigh]
    split
    · next hcond =>
      simp only [Bool.and_eq_true, decide_eq_true_eq] at hcond
      obtain ⟨⟨hc1, hc2⟩, _⟩ := hcond
      apply ih
      exact ⟨by dsimp only; omega, by dsimp only; omega,
        by dsimp only; omega, fun _ => ⟨by dsimp only; omega, by dsimp only; omega⟩⟩
    · exact ⟨hb1, hb2, hb3, hb4⟩

theorem findLongestMatch_bounds (a b : List Char) (b2j : List (Char × List ℕ))
    (alo ahi blo bhi : ℕ) :
    flmBnd alo ahi blo bhi (findLongestMatch a b b2j alo ahi blo bhi) := by
  have hinit : flmBnd alo ahi blo bhi (alo, blo, 0) :=
    ⟨le_refl _, le_refl _, fun _ => ⟨rfl, rfl⟩, fun h => absurd rfl h⟩
  have hmain : flmBnd alo ahi blo bhi
      (flmMain a b2j blo bhi (idxRange alo (ahi - alo)) [] (alo, blo, 0)) := by
    rcases Nat.le_total alo ahi with h | h
    · exact flmMain_inv a b2j alo blo bhi ahi (ahi - alo) alo [] _ (le_refl _)
        (by omega) (by intro p hp; simp at hp) hinit
    · have h0 : ahi - alo = 0 := by omega
      rw [h0]
      exact hinit
  exact extendHigh_bnd a b alo blo ahi bhi ahi _
    (extendLow_bnd a b alo blo ahi bhi _ _ hmain)

theorem matchTotalF_le (a b : List Char) (b2j : List (Char × List ℕ)) :
    ∀ fuel alo ahi blo bhi,
      matchTotalF a b b2j fuel alo ahi blo bhi ≤ ahi - alo ∧
      matchTotalF a b b2j fuel alo ahi blo bhi ≤ bhi - blo := by
  intro fuel
  induction fuel with
  | zero => intro alo ahi blo bhi; simp [matchTotalF]
  | succ fuel ih =>
    intro alo ahi blo bhi
    obtain ⟨hb1, hb2, hb3, hb4⟩ := findLongestMatch_bounds a b b2j alo ahi blo bhi
    have ihA := ih alo (findLongestMatch a b b2j alo ahi blo bhi).1 blo
      (findLongestMatch a b b2j alo ahi blo bhi).2.1
    have ihB := ih ((findLongestMatch a b b2j alo ahi blo bhi).1 +
        (findLongestMatch a b b2j alo ahi blo bhi).2.2) ahi
      ((findLongestMatch a b b2j alo ahi blo bhi).2.1 +
        (findLongestMatch a b b2j alo ahi blo bhi).2.2) bhi
    obtain ⟨ihA1, ihA2⟩ := ihA
    obtain ⟨ihB1, ihB2⟩ := ihB
    simp only [matchTotalF]
    split
    · simp
    · next hk0 =>
      obtain ⟨hs1, hs2⟩ := hb4 hk0
      constructor <;>
      · split <;> split <;> omega

theorem blockMatchTotal_le (a b : List Char) :
    blockMatchTotal a b ≤ a.length ∧ blockMatchTotal a b ≤ b.length := by
  have h := matchTotalF_le a b (chainB b) (a.length + b.length + 1) 0 a.length 0 b.length
  simpa [blockMatchTotal] using h

theorem simRatio_mem (a b : List Char) : 0 ≤ simRatio a b ∧ simRatio a b ≤ 1 := by
  unfold simRatio
  split
  · norm_num
  · next h =>
    have hpos : 0 < a.length + b.length := Nat.pos_of_ne_zero h
    have hposq : (0 : ℚ) < (a.length : ℚ) + (b.length : ℚ) := by exact_mod_cast hpos
    obtain ⟨h1, h2⟩ := blockMatchTotal_le a b
    constructor
    · apply div_nonneg _ (le_of_lt hposq)
      positivity
    · rw [div_le_one hposq]
      have h3 : 2 * blockMatchTotal a b ≤ a.length + b.length := by omega
      exact_mod_cast h3

theorem calcWordSimilarity_mem (w1 w2 : String) :
    0 ≤ calcWordSimilarity w1 w2 ∧ calcWordSimilarity w1 w2 ≤ 1 := by
  unfold calcWordSimilarity
  split
  · norm_num
  · exact simRatio_mem _ _

/-! ## Structure of the backtracking output -/

/-- The expected-side projection of a record (present iff the record
carries an expected token). -/
def expProj (r : WordAlignment) : Option String :=
  if r.expected_word = "" then none else some r.expected_word

/-- The actual-side projection of a record. -/
def actProj (r : WordAlignment) : Option String :=
  if r.actual_word = "" then none else some r.actual_word

theorem getD_str_mem {l : List String} {i : ℕ} (h : i < l.length) :
    l.getD i "" ∈ l := by
  rw [List.getD_eq_getElem?_getD, List.getElem?_eq_getElem h]
  exact List.getElem_mem h

theorem take_succ_reverse {α : Type} {l : List α} {i : ℕ} (h : i < l.length) (d : α) :
    (l.take (i + 1)).reverse = l.getD i d :: (l.take i).reverse := by
  rw [List.take_succ, List.getElem?_eq_getElem h]
  simp [List.getD_eq_getElem?_getD, List.getElem?_eq_getElem h]

theorem backtrack_expProj (ew aw : List String) (ts : List (String × ℚ × ℚ))
    (he : "" ∉ ew) :
    ∀ fuel i j, i + j ≤ fuel → i ≤ ew.length →
      (backtrackAux ew aw ts fuel i j).filterMap expProj = (ew.take i).reverse := by
  intro fuel
  induction fuel with
  | zero =>
    intro i j hij hi
    have hi0 : i = 0 := by omega
    have hj0 : j = 0 := by omega
    subst hi0
    subst hj0
    simp [backtrackAux]
  | succ fuel ih =>
    intro i j hij hi
    cases i with
    | zero =>
      cases j with
      | zero => simp [backtrackAux]
      | succ j =>
        simp only [backtrackAux, List.filterMap_cons]
        have hnone : expProj ⟨"", aw.getD j "", 0, (tsGet ts (aw.getD j "")).1,
            (tsGet ts (aw.getD j "")).2, false⟩ = none := by
          dsimp only [expProj]
          rw [if_pos rfl]
        rw [hnone]
        exact ih 0 j (by omega) (by omega)
    | succ i =>
      have hiw : i < ew.length := by omega
      have hne : ew.getD i "" ≠ "" := by
        intro h0
        exact he (h0 ▸ getD_str_mem hiw)
      cases j with
      | zero =>
        simp only [backtrackAux, List.filterMap_cons]
        have hsome : expProj ⟨ew.getD i "", "", 0, 0, 0, false⟩ =
            some (ew.getD i "") := by
          dsimp only [expProj]
          rw [if_neg hne]
        rw [hsome, ih i 0 (by omega) (by omega), take_succ_reverse hiw]
      | succ j =>
        simp only [backtrackAux]
        split
        · simp only [List.filterMap_cons]
          have hsome : expProj ⟨ew.getD i "", aw.getD j "",
              calcWordSimilarity (ew.getD i "") (aw.getD j ""),
              (tsGet ts (aw.getD j "")).1, (tsGet ts (aw.getD j "")).2,
              decide (minWordSimilarity ≤
                calcWordSimilarity (ew.getD i "") (aw.getD j ""))⟩ =
              some (ew.getD i "") := by
            dsimp only [expProj]
            rw [if_neg hne]
          rw [hsome, ih i j (by omega) (by omega), take_succ_reverse hiw]
        · split
          · simp only [List.filterMap_cons]
            have hsome : expProj ⟨ew.getD i "", "", 0, 0, 0, false⟩ =
                some (ew.getD i "") := by
              dsimp only [expProj]
              rw [if_neg hne]
            rw [hsome, ih i (j + 1) (by omega) (by omega), take_succ_reverse hiw]
          · simp only [List.filterMap_cons]
            have hnone : expProj ⟨"", aw.getD j "", 0, (tsGet ts (aw.getD j "")).1,
                (tsGet ts (aw.getD j "")).2, false⟩ = none := by
              dsimp only [expProj]
              rw [if_pos rfl]
            rw [hnone]
            exact ih (i + 1) j (by omega) (by omega)

theorem backtrack_actProj (ew aw : List String) (ts : List (String × ℚ × ℚ))
    (ha : "" ∉ aw) :
    ∀ fuel i j, i + j ≤ fuel → j ≤ aw.length →
      (backtrackAux ew aw ts fuel i j).filterMap actProj = (aw.take j).reverse := by
  intro fuel
  induction fuel with
  | zero =>
    intro i j hij hj
    have hi0 : i = 0 := by omega
    have hj0 : j = 0 := by omega
    subst hi0
    subst hj0
    simp [backtrackAux]
  | succ fuel ih =>
    intro i j hij hj
    cases i with
    | zero =>
      cases j with
      | zero => simp [backtrackAux]
      | succ j =>
        have hjw : j < aw.length := by omega
        have hne : aw.getD j "" ≠ "" := by
          intro h0
          exact ha (h0 ▸ getD_str_mem hjw)
        simp only [backtrackAux, List.filterMap_cons]
        have hsome : actProj ⟨"", aw.getD j "", 0, (tsGet ts (aw.getD j "")).1,
            (tsGet ts (aw.getD j "")).2, false⟩ = some (aw.getD j "") := by
          dsimp only [actProj]
          rw [if_neg hne]
        rw [hsome, ih 0 j (by omega) (by omega), take_succ_reverse hjw]
    | succ i =>
      cases j with
      | zero =>
        simp only [backtrackAux, List.filterMap_cons]
        have hnone : actProj ⟨ew.getD i "", "", 0, 0, 0, false⟩ = none := by
          dsimp only [actProj]
          rw [if_pos rfl]
        rw [hnone]
        exact ih i 0 (by omega) (by omega)
      | succ j =>
        have hjw : j < aw.length := by omega
        have hne : aw.getD j "" ≠ "" := by
          intro h0
          exact ha (h0 ▸ getD_str_mem hjw)
        simp only [backtrackAux]
        split
        · simp only [List.filterMap_cons]
          have hsome : actProj ⟨ew.getD i "", aw.getD j "",
              calcWordSimilarity (ew.getD i "") (aw.getD j ""),
              (tsGet ts (aw.getD j "")).1, (tsGet ts (aw.getD j "")).2,
              decide (minWordSimilarity ≤
                calcWordSimilarity (ew.getD i "") (aw.getD j ""))⟩ =
              some (aw.getD j "") := by
            dsimp only [actProj]
            rw [if_neg hne]
          rw [hsome, ih i j (by omega) (by omega), take_succ_reverse hjw]
        · split
          · simp only [List.filterMap_cons]
            have hnone : actProj ⟨ew.getD i "", "", 0, 0, 0, false⟩ = none := by
              dsimp only [actProj]
              rw [if_pos rfl]
            rw [hnone]
            exact ih i (j + 1) (by omega) (by omega)
          · simp only [List.filterMap_cons]
            have hsome : actProj ⟨"", aw.getD j "", 0, (tsGet ts (aw.getD j "")).1,
                (tsGet ts (aw.getD j "")).2, false⟩ = some (aw.getD j "") := by
              dsimp only [actProj]
              rw [if_neg hne]
            rw [hsome, ih (i + 1) j (by omega) (by omega), take_succ_reverse hjw]

theorem backtrack_mem (ew aw : List String) (ts : List (String × ℚ × ℚ)) :
    ∀ fuel i j, i ≤ ew.length → j ≤ aw.length →
      ∀ r ∈ backtrackAux ew aw ts fuel i j,
        (0 ≤ r.similarity ∧ r.similarity ≤ 1) ∧
        (r.actual_word ≠ "" → (r.start_time, r.end_time) = tsGet ts r.actual_word) ∧
        ("" ∉ ew → r.is_match = true → r.expected_word ≠ "") ∧
        ("" ∉ ew → "" ∉ aw → (r.expected_word ≠ "" ∨ r.actual_word ≠ "")) := by
  intro fuel
  induction fuel with
  | zero =>
    intro i j _ _ r hr
    simp [backtrackAux] at hr
  | succ fuel ih =>
    intro i j hi hj r hr
    cases i with
    | zero =>
      cases j with
      | zero => simp [backtrackAux] at hr
      | succ j =>
        have hjw : j < aw.length := by omega
        have hnea : "" ∉ aw → aw.getD j "" ≠ "" :=
          fun ha h0 => ha (h0 ▸ getD_str_mem hjw)
        simp only [backtrackAux, List.mem_cons] at hr
        rcases hr with hr | hr
        · subst hr
          refine ⟨by norm_num, ?_, ?_, ?_⟩
          · intro _
            rfl
          · intro _ hm
            simp at hm
          · intro _ ha
            exact Or.inr (hnea ha)
        · exact ih 0 j (by omega) (by omega) r hr
    | succ i =>
      have hiw : i < ew.length := by omega
      have hnee : "" ∉ ew → ew.getD i "" ≠ "" :=
        fun he h0 => he (h0 ▸ getD_str_mem hiw)
      cases j with
      | zero =>
        simp only [backtrackAux, List.mem_cons] at hr
        rcases hr with hr | hr
        · subst hr
          refine ⟨by norm_num, ?_, ?_, ?_⟩
          · intro hcontra
            exact absurd rfl hcontra
          · intro _ hm
            simp at hm
          · intro he _
            exact Or.inl (hnee he)
        · exact ih i 0 (by omega) (by omega) r hr
      | succ j =>
        have hjw : j < aw.length := by omega
        have hnea : "" ∉ aw → aw.getD j "" ≠ "" :=
          fun ha h0 => ha (h0 ▸ getD_str_mem hjw)
        simp only [backtrackAux] at hr
        split at hr
        · simp only [List.mem_cons] at hr
          rcases hr with hr | hr
          · subst hr
            refine ⟨calcWordSimilarity_mem _ _, ?_, ?_, ?_⟩
            · intro _
              rfl
            · intro he _
              exact hnee he
            · intro he _
              exact Or.inl (hnee he)
          · exact ih i j (by omega) (by omega) r hr
        · split at hr
          · simp only [List.mem_cons] at hr
            rcases hr with hr | hr
            · subst hr
              refine ⟨by norm_num, ?_, ?_, ?_⟩
              · intro hcontra
                exact absurd rfl hcontra
              · intro _ hm
                simp at hm
              · intro he _
                exact Or.inl (hnee he)
            · exact ih i (j + 1) (by omega) (by omega) r hr
          · simp only [List.mem_cons] at hr
            rcases hr with hr | hr
            · subst hr
              refine ⟨by norm_num, ?_, ?_, ?_⟩
              · intro _
                rfl
              · intro _ hm
                simp at hm
              · intro _ ha
                exact Or.inr (hnea ha)
            · exact ih (i + 1) j (by omega) (by omega) r hr

/-- All the record facts, at the level of `alignWords`. -/
theorem alignWords_mem (ew aw : List String) (ws : List ASRWord) :
    ∀ r ∈ alignWords ew aw ws,
      (0 ≤ r.similarity ∧ r.similarity ≤ 1) ∧
      (r.actual_word ≠ "" →
        (r.start_time, r.end_time) = tsGet (buildTimestamps ws) r.actual_word) ∧
      ("" ∉ ew → r.is_match = true → r.expected_word ≠ "") ∧
      ("" ∉ ew → "" ∉ aw → (r.expected_word ≠ "" ∨ r.actual_word ≠ "")) := by
  intro r hr
  rw [alignWords, List.mem_reverse] at hr
  exact backtrack_mem ew aw (buildTimestamps ws) (ew.length + aw.length)
    ew.length aw.length (le_refl _) (le_refl _) r hr

/-- The two reconstruction equations at the level of `alignWords`. -/
theorem alignWords_proj (ew aw : List String) (ws : List ASRWord)
    (he : "" ∉ ew) (ha : "" ∉ aw) :
    (alignWords ew aw ws).filterMap expProj = ew ∧
    (alignWords ew aw ws).filterMap actProj = aw := by
  constructor
  · rw [alignWords, List.filterMap_reverse,
      backtrack_expProj ew aw (buildTimestamps ws) he (ew.length + aw.length)
        ew.length aw.length (le_refl _) (le_refl _)]
    simp
  · rw [alignWords, List.filterMap_reverse,
      backtrack_actProj ew aw (buildTimestamps ws) ha (ew.length + aw.length)
        ew.length aw.length (le_refl _) (le_refl _)]
    simp

theorem align_countP_exp (ew aw : List String) (ws : List ASRWord)
    (he : "" ∉ ew) (ha : "" ∉ aw) :
    (alignWords ew aw ws).countP (fun r => r.expected_word != "") = ew.length := by
  have hproj := (alignWords_proj ew aw ws he ha).1
  have hlen := congrArg List.length hproj
  rw [length_filterMap_eq_countP] at hlen
  rw [← hlen]
  apply List.countP_congr
  intro r _
  by_cases h : r.expected_word = "" <;> simp [expProj, h]

theorem align_countP_act (ew aw : List String) (ws : List ASRWord)
    (he : "" ∉ ew) (ha : "" ∉ aw) :
    (alignWords ew aw ws).countP (fun r => r.actual_word != "") = aw.length := by
  have hproj := (alignWords_proj ew aw ws he ha).2
  have hlen := congrArg List.length hproj
  rw [length_filterMap_eq_countP] at hlen
  rw [← hlen]
  apply List.countP_congr
  intro r _
  by_cases h : r.actual_word = "" <;> simp [actProj, h]

theorem countP_both_del (l : List WordAlignment) :
    l.countP isBothB + l.countP isDelB = l.countP (fun r => r.expected_word != "") := by
  induction l with
  | nil => simp
  | cons a t ih =>
    simp only [List.countP_cons]
    by_cases h1 : a.expected_word = "" <;> by_cases h2 : a.actual_word = "" <;>
      simp [isBothB, isDelB, h1, h2] <;> omega

theorem countP_both_ins (l : List WordAlignment) :
    l.countP isBothB + l.countP isInsB = l.countP (fun r => r.actual_word != "") := by
  induction l with
  | nil => simp
  | cons a t ih =>
    simp only [List.countP_cons]
    by_cases h1 : a.expected_word = "" <;> by_cases h2 : a.actual_word = "" <;>
      simp [isBothB, isInsB, h1, h2] <;> omega

theorem countP_length_split (l : List WordAlignment)
    (h : ∀ r ∈ l, r.expected_word ≠ "" ∨ r.actual_word ≠ "") :
    l.length = l.countP (fun r => r.expected_word != "") + l.countP isInsB := by
  induction l with
  | nil => simp
  | cons a t ih =>
    have ha := h a (by simp)
    have ht := ih (fun r hr => h r (by simp [hr]))
    simp only [List.countP_cons, List.length_cons]
    by_cases h1 : a.expected_word = "" <;> by_cases h2 : a.actual_word = "" <;>
      simp only [isInsB, h1, h2] <;> simp_all <;> omega

/-! ## Preprocessing facts -/

theorem hasNonWs_ne_empty {s : String} (h : hasNonWs s = true) : s ≠ "" := by
  intro h0
  subst h0
  simp [hasNonWs] at h

theorem preprocess_no_empty (t : String) :
    "" ∉ (preprocessText t).processed_words := by
  unfold preprocessText
  have hgen : ∀ (ows : List String) (acc : PreprocessedText),
      "" ∉ acc.processed_words →
      "" ∉ (ows.foldl (fun acc ow =>
        let pw := normToken ow
        if hasNonWs pw then
          ⟨acc.processed_words ++ [pw], dictInsert acc.original_mapping pw ow⟩
        else acc) acc).processed_words := by
    intro ows
    induction ows with
    | nil => intro acc hacc; exact hacc
    | cons ow rest ih =>
      intro acc hacc
      simp only [List.foldl_cons]
      by_cases hw : hasNonWs (normToken ow) = true
      · apply ih
        simp only [hw, if_pos]
        intro hmem
        rcases List.mem_append.mp hmem with hmem | hmem
        · exact hacc hmem
        · have : "" = normToken ow := by simpa using hmem
          exact hasNonWs_ne_empty hw this.symm
      · apply ih
        simp only [Bool.not_eq_true] at hw
        simp only [hw]
        simpa using hacc
  exact hgen (originalTokens t) ⟨[], []⟩ (by simp)

/-! ## Range facts for the scores -/

theorem round2_mem {x : ℚ} (h0 : 0 ≤ x) (h10 : x ≤ 10) :
    0 ≤ round2 x ∧ round2 x ≤ 10 := by
  unfold round2
  have hlo : (0 : ℤ) ≤ round (x * 100) := by
    rw [round_eq]
    apply Int.floor_nonneg.mpr
    linarith
  have hhi : round (x * 100) ≤ 1000 := by
    rw [round_eq]
    have : x * 100 + 1 / 2 ≤ 1000 + 1 / 2 := by linarith
    calc ⌊x * 100 + 1 / 2⌋ ≤ ⌊(1000 : ℚ) + 1 / 2⌋ := Int.floor_le_floor this
      _ = 1000 := by
        rw [Int.floor_eq_iff] <;> norm_num
  constructor
  · positivity
  · rw [div_le_iff₀ (by norm_num : (0 : ℚ) < 100)]
    calc ((round (x * 100) : ℤ) : ℚ) ≤ ((1000 : ℤ) : ℚ) := by exact_mod_cast hhi
      _ = 10 * 100 := by norm_num

theorem calcPronunciationScore_mem (al : List WordAlignment)
    (h : ∀ r ∈ al, 0 ≤ r.similarity ∧ r.similarity ≤ 1) :
    0 ≤ calcPronunciationScore al ∧ calcPronunciationScore al ≤ 10 := by
  unfold calcPronunciationScore
  split
  · norm_num
  · dsimp only
    split
    · norm_num
    · next hne =>
      have hm : ∀ x ∈ (al.filter isBothB).map (fun r => r.similarity),
          0 ≤ x ∧ x ≤ 1 := by
        intro x hx
        rcases List.mem_map.mp hx with ⟨r, hr, hrx⟩
        subst hrx
        exact h r (List.mem_of_mem_filter hr)
      have hlen : 0 < (al.filter isBothB).length := by
        cases hfe : al.filter isBothB with
        | nil => exact absurd (by simp [hfe]) hne
        | cons a t => simp [hfe]
      have hlenq : (0 : ℚ) < ((al.filter isBothB).length : ℚ) := by exact_mod_cast hlen
      have hsum0 : 0 ≤ ((al.filter isBothB).map (fun r => r.similarity)).sum :=
        listSum_nonneg _ (fun x hx => (hm x hx).1)
      have hsum1 : ((al.filter isBothB).map (fun r => r.similarity)).sum ≤
          ((al.filter isBothB).length : ℚ) := by
        have := listSum_le_length ((al.filter isBothB).map (fun r => r.similarity))
          (fun x hx => (hm x hx).2)
        simpa using this
      constructor
      · apply le_min _ (by norm_num)
        positivity
      · exact min_le_right _ _

theorem calcPauseScore_mem (ws : List ASRWord) :
    1 ≤ calcPauseScore ws ∧ calcPauseScore ws ≤ 10 := by
  unfold calcPauseScore
  split
  · norm_num
  · dsimp only
    split
    · norm_num
    · split
      · norm_num
      · split
        · norm_num
        · constructor
          · exact le_max_right _ _
          · apply max_le _ (by norm_num)
            have : (0 : ℚ) ≤ (((ws.zip ws.tail).map (fun p => p.2.start - p.1.stop)).filter
                (fun x => decide ((1 : ℚ) < x))).length := by positivity
            linarith

theorem calcFluencyScore_mem (ws : List ASRWord) {f : ℚ}
    (hf : calcFluencyScore ws = some f) : 0 ≤ f ∧ f ≤ 10 := by
  unfold calcFluencyScore at hf
  cases ws with
  | nil =>
    simp only [Option.some.injEq] at hf
    subst hf
    norm_num
  | cons w0 rest =>
    simp only at hf
    split at hf
    · exact absurd hf (by simp)
    · simp only [Option.some.injEq] at hf
      subst hf
      have hsp : (1 : ℚ) ≤ (if 120 ≤ ((w0 :: rest).length : ℚ) /
            (((w0 :: rest).getLastD w0).stop - w0.start) * 60 ∧
            ((w0 :: rest).length : ℚ) /
            (((w0 :: rest).getLastD w0).stop - w0.start) * 60 ≤ 180 then 10
          else max (10 - min |((w0 :: rest).length : ℚ) /
            (((w0 :: rest).getLastD w0).stop - w0.start) * 60 - 120|
            |((w0 :: rest).length : ℚ) /
            (((w0 :: rest).getLastD w0).stop - w0.start) * 60 - 180| / 20) 1) ∧
          (if 120 ≤ ((w0 :: rest).length : ℚ) /
            (((w0 :: rest).getLastD w0).stop - w0.start) * 60 ∧
            ((w0 :: rest).length : ℚ) /
            (((w0 :: rest).getLastD w0).stop - w0.start) * 60 ≤ 180 then 10
          else max (10 - min |((w0 :: rest).length : ℚ) /
            (((w0 :: rest).getLastD w0).stop - w0.start) * 60 - 120|
            |((w0 :: rest).length : ℚ) /
            (((w0 :: rest).getLastD w0).stop - w0.start) * 60 - 180| / 20) 1) ≤ 10 := by
        split
        · norm_num
        · constructor
          · exact le_max_right _ _
          · apply max_le _ (by norm_num)
            have h1 : (0 : ℚ) ≤ min |((w0 :: rest).length : ℚ) /
                (((w0 :: rest).getLastD w0).stop - w0.start) * 60 - 120|
                |((w0 :: rest).length : ℚ) /
                (((w0 :: rest).getLastD w0).stop - w0.start) * 60 - 180| :=
              le_min (abs_nonneg _) (abs_nonneg _)
            linarith
      obtain ⟨hp1, hp2⟩ := calcPauseScore_mem (w0 :: rest)
      constructor
      · apply le_min _ (by norm_num)
        nlinarith [hsp.1, hsp.2]
      · exact min_le_right _ _

/-! ## Shape of the report -/

theorem calcFluencyScore_isSome (ws : List ASRWord)
    (h : ws = [] ∨ (ws.getLastD ⟨"", 0, 0⟩).stop ≠ (ws.headD ⟨"", 0, 0⟩).start) :
    ∃ f, calcFluencyScore ws = some f := by
  cases ws with
  | nil => exact ⟨5, rfl⟩
  | cons w0 rest =>
    have hne : ((w0 :: rest).getLastD w0).stop - w0.start ≠ 0 := by
      rcases h with h | h
      · exact absurd h (by simp)
      · have h1 : (w0 :: rest).getLastD (⟨"", 0, 0⟩ : ASRWord) =
            (w0 :: rest).getLastD w0 := by
          rw [List.getLastD_cons, List.getLastD_cons]
        have h2 : (w0 :: rest).headD (⟨"", 0, 0⟩ : ASRWord) = w0 := rfl
        rw [h1, h2] at h
        exact sub_ne_zero_of_ne h
    cases hc : calcFluencyScore (w0 :: rest) with
    | some f => exact ⟨f, rfl⟩
    | none =>
      exfalso
      unfold calcFluencyScore at hc
      dsimp only at hc
      rw [if_neg hne] at hc
      exact Option.noConfusion hc

theorem computeReport_none (oT tT : String) (ws : List ASRWord)
    (hf : calcFluencyScore ws = none) : computeReport oT tT ws = none := by
  simp [computeReport, calcAnalysisScores, hf]

theorem computeReport_some (oT tT : String) (ws : List ASRWord) {f : ℚ}
    (hf : calcFluencyScore ws = some f) :
    computeReport oT tT ws =
      some
        (let ep := preprocessText oT
         let rp := preprocessText tT
         let al := alignWords ep.processed_words rp.processed_words ws
         let total := ep.processed_words.length
         let correct := (al.filter (fun r => r.is_match)).length
         let wordAccuracy : ℚ :=
           if 0 < total then ((correct : ℚ) / (total : ℚ)) * 100 else 0
         let pron := calcPronunciationScore al
         let accuracy := wordAccuracy / 10
         let overall := pron * pronunciationAccuracyWeight + f * fluencyWeight +
           accuracy * accuracyWeight
         { recognized_text := tT
           word_count := total
           correct_words := correct
           word_accuracy := round2 wordAccuracy
           scores :=
             { accuracy_score := round2 accuracy
               fluency_score := round2 f
               pronunciation_score := round2 pron
               overall_score := round2 overall }
           word_details := al.filterMap (mkWordDetail ep rp)
           mispronounced_words := al.filterMap (fun r =>
             if isBothB r && !r.is_match then
               some (dGet ep.original_mapping r.expected_word r.expected_word)
             else none)
           missing_words := al.filterMap (fun r =>
             if isDelB r then
               some (dGet ep.original_mapping r.expected_word r.expected_word)
             else none)
           extra_words := al.filterMap (fun r =>
             if isInsB r then
               some (dGet rp.original_mapping r.actual_word r.actual_word)
             else none) }) := by
  simp only [computeReport, calcAnalysisScores, hf]

/-! ## The alignment algorithm as the specification words it (for the
refinement claim) -/

/-- Modelled from the spec (§4.3): the score table `dp[0..N][0..M]` with
`dp[0][*] = dp[*][0] = 0` and
`dp[i][j] = max(dp[i-1][j-1] + similarity, dp[i-1][j] - 0.5, dp[i][j-1] - 0.5)`. -/
def dpSpec (ew aw : List String) : ℕ → ℕ → ℚ
  | 0, _ => 0
  | _ + 1, 0 => 0
  | i + 1, j + 1 =>
    max (dpSpec ew aw i j + calcWordSimilarity (ew.getD i "") (aw.getD j ""))
      (max (dpSpec ew aw i (j + 1) - 1 / 2) (dpSpec ew aw (i + 1) j - 1 / 2))
termination_by i j => (i, j)

/-- Modelled from the spec (§4.3): backtrack from `(N, M)`, taking the
first branch in the order match → delete → insert whose recurrence value
equals the cell value within `1e-6`; flush the remaining prefix as pure
deletions or insertions.  The fourth arm (no branch within tolerance) is
unreachable, as `claim3` shows.  The fuel argument is only a structural
recursion device: `i + j` shrinks at every step, so fuel `i + j` never
runs out. -/
def backtrackSpecAux (ew aw : List String) (ts : List (String × ℚ × ℚ)) :
    ℕ → ℕ → ℕ → List WordAlignment
  | 0, _, _ => []
  | _ + 1, 0, 0 => []
  | fuel + 1, i + 1, 0 =>
    ⟨ew.getD i "", "", 0, 0, 0, false⟩ :: backtrackSpecAux ew aw ts fuel i 0
  | fuel + 1, 0, j + 1 =>
    let aword := aw.getD j ""
    let t := tsGet ts aword
    ⟨"", aword, 0, t.1, t.2, false⟩ :: backtrackSpecAux ew aw ts fuel 0 j
  | fuel + 1, i + 1, j + 1 =>
    let eword := ew.getD i ""
    let aword := aw.getD j ""
    let s := calcWordSimilarity eword aword
    let t := tsGet ts aword
    if |dpSpec ew aw (i + 1) (j + 1) - (dpSpec ew aw i j + s)| < alignTol then
      ⟨eword, aword, s, t.1, t.2, decide (minWordSimilarity ≤ s)⟩ ::
        backtrackSpecAux ew aw ts fuel i j
    else if |dpSpec ew aw (i + 1) (j + 1) - (dpSpec ew aw i (j + 1) - 1 / 2)| < alignTol then
      ⟨eword, "", 0, 0, 0, false⟩ :: backtrackSpecAux ew aw ts fuel i (j + 1)
    else if |dpSpec ew aw (i + 1) (j + 1) - (dpSpec ew aw (i + 1) j - 1 / 2)| < alignTol then
      ⟨"", aword, 0, t.1, t.2, false⟩ :: backtrackSpecAux ew aw ts fuel (i + 1) j
    else []

/-- Modelled from the spec (§4.3): the full aligner, records reversed into
forward order. -/
def alignSpec (ew aw : List String) (ws : List ASRWord) : List WordAlignment :=
  (backtrackSpecAux ew aw (buildTimestamps ws) (ew.length + aw.length)
    ew.length aw.length).reverse

theorem dpFun_eq_dpSpec (ew aw : List String) :
    ∀ i j, dpFun ew aw i j = dpSpec ew aw i j := by
  intro i
  induction i with
  | zero =>
    intro j
    cases j <;> simp [dpFun, dpSpec]
  | succ i ihi =>
    intro j
    induction j with
    | zero => simp [dpFun, dpRow, dpSpec]
    | succ j ihj =>
      have h1 : dpFun ew aw (i + 1) (j + 1) =
          max (dpFun ew aw i j + calcWordSimilarity (ew.getD i "") (aw.getD j ""))
            (max (dpFun ew aw i (j + 1) - 1 / 2) (dpFun ew aw (i + 1) j - 1 / 2)) := rfl
      rw [h1, ihi j, ihi (j + 1), ihj]
      simp only [dpSpec]

theorem alignTol_pos : (0 : ℚ) < alignTol := by norm_num [alignTol]

theorem dp_insert_branch (ew aw : List String) (i j : ℕ)
    (h1 : ¬ |dpFun ew aw (i + 1) (j + 1) -
      (dpFun ew aw i j + calcWordSimilarity (ew.getD i "") (aw.getD j ""))| < alignTol)
    (h2 : ¬ |dpFun ew aw (i + 1) (j + 1) -
      (dpFun ew aw i (j + 1) - 1 / 2)| < alignTol) :
    |dpFun ew aw (i + 1) (j + 1) - (dpFun ew aw (i + 1) j - 1 / 2)| < alignTol := by
  have h0 : dpFun ew aw (i + 1) (j + 1) =
      max (dpFun ew aw i j + calcWordSimilarity (ew.getD i "") (aw.getD j ""))
        (max (dpFun ew aw i (j + 1) - 1 / 2) (dpFun ew aw (i + 1) j - 1 / 2)) := rfl
  rcases max_choice (dpFun ew aw i j + calcWordSimilarity (ew.getD i "") (aw.getD j ""))
      (max (dpFun ew aw i (j + 1) - 1 / 2) (dpFun ew aw (i + 1) j - 1 / 2)) with hmax | hmax
  · exfalso
    apply h1
    rw [h0, hmax]
    simpa using alignTol_pos
  · rcases max_choice (dpFun ew aw i (j + 1) - 1 / 2) (dpFun ew aw (i + 1) j - 1 / 2)
        with hmax2 | hmax2
    · exfalso
      apply h2
      rw [h0, hmax, hmax2]
      simpa using alignTol_pos
    · rw [h0, hmax, hmax2]
      simpa using alignTol_pos

theorem backtrackAux_eq_spec (ew aw : List String) (ts : List (String × ℚ × ℚ)) :
    ∀ fuel i j, backtrackAux ew aw ts fuel i j = backtrackSpecAux ew aw ts fuel i j := by
  have hdp : ∀ a b, dpSpec ew aw a b = dpFun ew aw a b :=
    fun a b => (dpFun_eq_dpSpec ew aw a b).symm
  intro fuel
  induction fuel with
  | zero => intro i j; rfl
  | succ fuel ih =>
    intro i j
    cases i with
    | zero =>
      cases j with
      | zero => rfl
      | succ j =>
        simp only [backtrackAux, backtrackSpecAux]
        rw [ih 0 j]
    | succ i =>
      cases j with
      | zero =>
        simp only [backtrackAux, backtrackSpecAux]
        rw [ih i 0]
      | succ j =>
        simp only [backtrackAux, backtrackSpecAux, hdp]
        by_cases hc1 : |dpFun ew aw (i + 1) (j + 1) -
            (dpFun ew aw i j + calcWordSimilarity (ew.getD i "") (aw.getD j ""))| < alignTol
        · rw [if_pos hc1, if_pos hc1, ih i j]
        · rw [if_neg hc1, if_neg hc1]
          by_cases hc2 : |dpFun ew aw (i + 1) (j + 1) -
              (dpFun ew aw i (j + 1) - 1 / 2)| < alignTol
          · rw [if_pos hc2, if_pos hc2, ih i (j + 1)]
          · rw [if_neg hc2, if_neg hc2,
              if_pos (dp_insert_branch ew aw i j hc1 hc2), ih (i + 1) j]

/-! ## Timing index facts -/

theorem dGet_insert {α : Type} (m : List (String × α)) (key k : String) (v d : α) :
    dGet (dictInsert m key v) k d = if key = k then v else dGet m k d := by
  by_cases h : key = k
  · simp [dictInsert, dGet, List.find?, h]
  · have hb : (key == k) = false := by simpa using h
    simp [dictInsert, dGet, List.find?, hb, h]

theorem buildTimestamps_snoc (ws : List ASRWord) (w : ASRWord) (k : String) :
    tsGet (buildTimestamps (ws ++ [w])) k =
      if cleanAsrWord w.word = k then (w.start, w.stop)
      else tsGet (buildTimestamps ws) k := by
  unfold buildTimestamps tsGet
  rw [List.foldl_append]
  simp only [List.foldl_cons, List.foldl_nil]
  exact dGet_insert _ _ _ _ _

theorem tsGet_default (ws : List ASRWord) (k : String)
    (h : ∀ w ∈ ws, cleanAsrWord w.word ≠ k) :
    tsGet (buildTimestamps ws) k = (0, 0) := by
  unfold buildTimestamps tsGet
  have hgen : ∀ (l : List ASRWord) (init : List (String × ℚ × ℚ)),
      (∀ w ∈ l, cleanAsrWord w.word ≠ k) →
      dGet (l.foldl (fun m w =>
        dictInsert m (cleanAsrWord w.word) (w.start, w.stop)) init) k ((0 : ℚ), (0 : ℚ)) =
        dGet init k (0, 0) := by
    intro l
    induction l with
    | nil => intro init _; rfl
    | cons w t ih =>
      intro init hl
      simp only [List.foldl_cons]
      rw [ih _ (fun x hx => hl x (by simp [hx]))]
      rw [dGet_insert, if_neg (hl w (by simp))]
  rw [hgen ws [] h]
  rfl

/-! ## Pronunciation score, spelled as the specification does -/

theorem calcPronunciationScore_eq (al : List WordAlignment) :
    calcPronunciationScore al =
      if (al.filter isBothB).length = 0 then 0
      else min 10 (10 * (((al.filter isBothB).map (fun r => r.similarity)).sum /
        ((al.filter isBothB).length : ℚ))) := by
  unfold calcPronunciationScore
  by_cases h0 : al.isEmpty
  · rw [if_pos h0]
    have h0e : al = [] := List.isEmpty_iff.mp h0
    subst h0e
    simp
  · rw [if_neg h0]
    dsimp only
    by_cases h1 : (al.filter isBothB).isEmpty
    · have h1e : al.filter isBothB = [] := List.isEmpty_iff.mp h1
      rw [if_pos h1, if_pos (by simp [h1e])]
    · have h1ne : (al.filter isBothB).length ≠ 0 := by
        intro hc
        exact absurd (List.isEmpty_iff.mpr (List.length_eq_zero.mp hc)) h1
      rw [if_neg h1, if_neg h1ne, min_comm, mul_comm]

theorem round2_zero : round2 0 = 0 := by
  simp [round2]

theorem accuracy_formula (total correct : ℕ) :
    (if 0 < total then ((correct : ℚ) / (total : ℚ)) * 100 else 0) / 10 =
      (correct : ℚ) / (total : ℚ) * 10 := by
  split
  · ring
  · next h =>
    have h0 : total = 0 := by omega
    subst h0
    simp

theorem str_data_len_zero {s : String} (h : s.data.length = 0) : s = "" := by
  cases s with
  | mk d =>
    have hd : d = [] := List.length_eq_zero.mp h
    subst hd
    rfl

theorem lowerStr_data_length (s : String) :
    (lowerStr s).data.length = s.data.length := by
  simp [lowerStr]

theorem mkWordDetail_isSome (ep rp : PreprocessedText) (r : WordAlignment) :
    (mkWordDetail ep rp r).isSome = (r.expected_word != "") := by
  unfold mkWordDetail
  by_cases h1 : r.expected_word = "" <;> by_cases h2 : r.actual_word = "" <;>
    simp [isBothB, isDelB, h1, h2]

/-! ## The claims -/

/-- Claim C2: every alignment record carries an expected token, an actual
token, or both; both-present records plus expected-only records count the
expected tokens, both-present plus actual-only count the actual tokens,
the list length is the sum of the three kinds, and reading the records in
order reproduces both sequences (tokens are nonempty normalized strings,
as produced by the tokenizer). -/
theorem claim2 (ew aw : List String) (ws : List ASRWord)
    (he : "" ∉ ew) (ha : "" ∉ aw) :
    (∀ r ∈ alignWords ew aw ws, r.expected_word ≠ "" ∨ r.actual_word ≠ "") ∧
    (alignWords ew aw ws).countP isBothB + (alignWords ew aw ws).countP isDelB
      = ew.length ∧
    (alignWords ew aw ws).countP isBothB + (alignWords ew aw ws).countP isInsB
      = aw.length ∧
    (alignWords ew aw ws).length =
      (alignWords ew aw ws).countP isBothB + (alignWords ew aw ws).countP isDelB +
        (alignWords ew aw ws).countP isInsB ∧
    (alignWords ew aw ws).filterMap expProj = ew ∧
    (alignWords ew aw ws).filterMap actProj = aw := by
  have hmem := alignWords_mem ew aw ws
  have hor : ∀ r ∈ alignWords ew aw ws, r.expected_word ≠ "" ∨ r.actual_word ≠ "" :=
    fun r hr => ((hmem r hr).2.2.2) he ha
  have hexp := align_countP_exp ew aw ws he ha
  have hact := align_countP_act ew aw ws he ha
  have hproj := alignWords_proj ew aw ws he ha
  refine ⟨hor, ?_, ?_, ?_, hproj.1, hproj.2⟩
  · rw [countP_both_del]
    exact hexp
  · rw [countP_both_ins]
    exact hact
  · have hsplit := countP_length_split (alignWords ew aw ws) hor
    have hbd := countP_both_del (alignWords ew aw ws)
    omega

theorem claim2_witness :
    (("" : String) ∉ (["a"] : List String)) ∧
    (("" : String) ∉ (["b"] : List String)) ∧
    ((∀ r ∈ alignWords ["a"] ["b"] [], r.expected_word ≠ "" ∨ r.actual_word ≠ "") ∧
      (alignWords ["a"] ["b"] []).countP isBothB +
        (alignWords ["a"] ["b"] []).countP isDelB = (["a"] : List String).length ∧
      (alignWords ["a"] ["b"] []).countP isBothB +
        (alignWords ["a"] ["b"] []).countP isInsB = (["b"] : List String).length ∧
      (alignWords ["a"] ["b"] []).length =
        (alignWords ["a"] ["b"] []).countP isBothB +
          (alignWords ["a"] ["b"] []).countP isDelB +
          (alignWords ["a"] ["b"] []).countP isInsB ∧
      (alignWords ["a"] ["b"] []).filterMap expProj = ["a"] ∧
      (alignWords ["a"] ["b"] []).filterMap actProj = ["b"]) :=
  ⟨by decide, by decide, claim2 ["a"] ["b"] [] (by decide) (by decide)⟩

/-- Claim C3: the aligner computes exactly the specified dynamic program
(`dpSpec`) and the specified tolerance-checked backtracking in the fixed
order match → delete → insert, flushing the remaining prefix and reversing
the record list (`alignSpec`). -/
theorem claim3 (ew aw : List String) (ws : List ASRWord) :
    alignWords ew aw ws = alignSpec ew aw ws ∧
    (∀ i j, dpFun ew aw i j = dpSpec ew aw i j) := by
  constructor
  · unfold alignWords alignSpec
    rw [backtrackAux_eq_spec]
  · exact dpFun_eq_dpSpec ew aw

/-- Claim C9: the similarity function returns a value in `[0, 1]`, exactly
`1` on equal strings, and otherwise the block-matching ratio
`2 * M / (len a + len b)` with `M` the total length of the matching blocks
of the recursive longest-matching-block decomposition. -/
theorem claim9 (w1 w2 : String) :
    0 ≤ calcWordSimilarity w1 w2 ∧ calcWordSimilarity w1 w2 ≤ 1 ∧
    (w1 = w2 → calcWordSimilarity w1 w2 = 1) ∧
    (w1 ≠ w2 → calcWordSimilarity w1 w2 =
      2 * (blockMatchTotal (lowerStr w1).data (lowerStr w2).data : ℚ) /
        (((lowerStr w1).data.length : ℚ) + ((lowerStr w2).data.length : ℚ))) := by
  obtain ⟨h0, h1⟩ := calcWordSimilarity_mem w1 w2
  refine ⟨h0, h1, ?_, ?_⟩
  · intro h
    simp [calcWordSimilarity, h]
  · intro h
    unfold calcWordSimilarity
    rw [if_neg h]
    unfold simRatio
    rw [if_neg ?_]
    intro hz
    have hz1 : (lowerStr w1).data.length = 0 := by omega
    have hz2 : (lowerStr w2).data.length = 0 := by omega
    rw [lowerStr_data_length] at hz1 hz2
    have hw1 : w1 = "" := str_data_len_zero hz1
    have hw2 : w2 = "" := str_data_len_zero hz2
    exact h (hw1.trans hw2.symm)

theorem claim9_witness :
    ("ab" : String) ≠ "b" ∧
    calcWordSimilarity "ab" "b" =
      2 * (blockMatchTotal (lowerStr "ab").data (lowerStr "b").data : ℚ) /
        (((lowerStr "ab").data.length : ℚ) + ((lowerStr "b").data.length : ℚ)) ∧
    calcWordSimilarity "ab" "b" = 2 / 3 := by
  refine ⟨by decide, (claim9 "ab" "b").2.2.2 (by decide), ?_⟩
  with_unfolding_all decide

/-- Claim C6: the timestamp lookup is keyed on the normalized form of the
recognized word, later occurrences overwrite earlier ones, a normalized
form with no entry resolves to `(0, 0)`, and every alignment record that
carries an actual token takes its `(start_time, end_time)` from this
lookup. -/
theorem claim6 :
    (∀ (ws : List ASRWord) (w : ASRWord) (k : String),
      tsGet (buildTimestamps (ws ++ [w])) k =
        if cleanAsrWord w.word = k then (w.start, w.stop)
        else tsGet (buildTimestamps ws) k) ∧
    (∀ (ws : List ASRWord) (k : String), (∀ w ∈ ws, cleanAsrWord w.word ≠ k) →
      tsGet (buildTimestamps ws) k = (0, 0)) ∧
    (∀ (ew aw : List String) (ws : List ASRWord),
      ∀ r ∈ alignWords ew aw ws, r.actual_word ≠ "" →
        (r.start_time, r.end_time) = tsGet (buildTimestamps ws) r.actual_word) :=
  ⟨buildTimestamps_snoc, tsGet_default,
    fun ew aw ws r hr => ((alignWords_mem ew aw ws) r hr).2.1⟩

theorem claim6_witness :
    (tsGet (buildTimestamps ([⟨"hi", 1, 2⟩] ++ [⟨"hi", 3, 4⟩])) "hi" =
      if cleanAsrWord (ASRWord.mk "hi" 3 4).word = "hi" then
        ((ASRWord.mk "hi" 3 4).start, (ASRWord.mk "hi" 3 4).stop)
      else tsGet (buildTimestamps [⟨"hi", 1, 2⟩]) "hi") ∧
    ((∀ w ∈ ([] : List ASRWord), cleanAsrWord w.word ≠ "yo") ∧
      tsGet (buildTimestamps []) "yo" = (0, 0)) :=
  ⟨claim6.1 [⟨"hi", 1, 2⟩] ⟨"hi", 3, 4⟩ "hi",
    ⟨by simp, claim6.2.1 [] "yo" (by simp)⟩⟩

/-- Claim C5 (code behavior at the failing input): with reference text
`"dog. dog"` the two distinct original tokens `"dog."` and `"dog"` both
normalize to `"dog"`; the per-word details for the two reference positions
report `["dog", "dog"]`, so position 0 reports `"dog"` instead of its own
original surface form `"dog."` — the normalized-keyed mapping, not a
positional one, decides the reported form. -/
theorem claim5_behavior :
    originalTokens "dog. dog" = ["dog.", "dog"] ∧
    (preprocessText "dog. dog").processed_words = ["dog", "dog"] ∧
    (computeReport "dog. dog" "dog" [⟨"dog", 0, 1⟩]).map
      (fun r => r.word_details.map (fun d => d.word)) = some ["dog", "dog"] := by
  refine ⟨?_, ?_, ?_⟩ <;> with_unfolding_all decide

/-- Claim C7: the reported pronunciation score is (the two-decimal rounding
of) `min(10, 10 * mean similarity over both-present records)`, and `0`
when no such record exists. -/
theorem claim7 (oT tT : String) (ws : List ASRWord) (r : RecitationAnalysis)
    (h : computeReport oT tT ws = some r) :
    r.scores.pronunciation_score = round2
      (if ((alignWords (preprocessText oT).processed_words
          (preprocessText tT).processed_words ws).filter isBothB).length = 0 then 0
       else min 10 (10 * ((((alignWords (preprocessText oT).processed_words
          (preprocessText tT).processed_words ws).filter isBothB).map
            (fun x => x.similarity)).sum /
         (((alignWords (preprocessText oT).processed_words
          (preprocessText tT).processed_words ws).filter isBothB).length : ℚ)))) := by
  cases hf : calcFluencyScore ws with
  | none =>
    rw [computeReport_none oT tT ws hf] at h
    exact absurd h (by simp)
  | some f =>
    rw [computeReport_some oT tT ws hf] at h
    simp only [Option.some.injEq] at h
    subst h
    exact congrArg round2 (calcPronunciationScore_eq _)

theorem claim7_witness :
    (computeReport "a b" "a b" [⟨"a", 0, 1⟩, ⟨"b", 1, 2⟩]).map
      (fun r => r.scores.pronunciation_score) = some 10 := by
  cases hrep : computeReport "a b" "a b" [⟨"a", 0, 1⟩, ⟨"b", 1, 2⟩] with
  | none => exact absurd hrep (by with_unfolding_all decide)
  | some r =>
    have h := claim7 "a b" "a b" [⟨"a", 0, 1⟩, ⟨"b", 1, 2⟩] r hrep
    show some r.scores.pronunciation_score = some 10
    rw [h]
    with_unfolding_all decide

/-- Claim C4: the reported accuracy score is (the two-decimal rounding of)
`(is_match records / expected token count) * 10`, `0` when there are no
expected tokens; and in the concrete scenario expected `a b c` against
recognized `a x c` the alignment has three both-present records of which
two are matches, and the reported accuracy is `6.67`. -/
theorem claim4 :
    (∀ (oT tT : String) (ws : List ASRWord) (r : RecitationAnalysis),
      computeReport oT tT ws = some r →
      r.scores.accuracy_score = round2
        ((((alignWords (preprocessText oT).processed_words
            (preprocessText tT).processed_words ws).countP
              (fun x => x.is_match)) : ℚ) /
          (((preprocessText oT).processed_words.length : ℕ) : ℚ) * 10) ∧
      ((preprocessText oT).processed_words.length = 0 →
        r.scores.accuracy_score = 0)) ∧
    ((computeReport "a b c" "a x c" [⟨"a", 0, 1⟩, ⟨"x", 1, 2⟩, ⟨"c", 2, 3⟩]).map
        (fun r => (r.scores.accuracy_score, r.correct_words)) =
      some (667 / 100, 2) ∧
     (alignWords (preprocessText "a b c").processed_words
        (preprocessText "a x c").processed_words
        [⟨"a", 0, 1⟩, ⟨"x", 1, 2⟩, ⟨"c", 2, 3⟩]).countP isBothB = 3 ∧
     (alignWords (preprocessText "a b c").processed_words
        (preprocessText "a x c").processed_words
        [⟨"a", 0, 1⟩, ⟨"x", 1, 2⟩, ⟨"c", 2, 3⟩]).countP (fun x => x.is_match) = 2) := by
  constructor
  · intro oT tT ws r h
    cases hf : calcFluencyScore ws with
    | none =>
      rw [computeReport_none oT tT ws hf] at h
      exact absurd h (by simp)
    | some f =>
      rw [computeReport_some oT tT ws hf] at h
      simp only [Option.some.injEq] at h
      subst h
      constructor
      · have hcp : (alignWords (preprocessText oT).processed_words
            (preprocessText tT).processed_words ws).countP (fun x => x.is_match) =
            ((alignWords (preprocessText oT).processed_words
              (preprocessText tT).processed_words ws).filter
                (fun x => x.is_match)).length :=
          List.countP_eq_length_filter _ _
        rw [hcp]
        exact congrArg round2 (accuracy_formula _ _)
      · intro h0
        show round2 ((if 0 < (preprocessText oT).processed_words.length then
            ((((alignWords (preprocessText oT).processed_words
              (preprocessText tT).processed_words ws).filter
                (fun x => x.is_match)).length : ℚ) /
              (((preprocessText oT).processed_words.length : ℕ) : ℚ)) * 100
          else 0) / 10) = 0
        rw [h0]
        norm_num [round2_zero]
  · refine ⟨?_, ?_, ?_⟩ <;> with_unfolding_all decide

theorem claim4_witness :
    (computeReport "a" "a" [⟨"a", 0, 1⟩]).map (fun r => r.scores.accuracy_score) =
      some 10 := by
  cases hrep : computeReport "a" "a" [⟨"a", 0, 1⟩] with
  | none => exact absurd hrep (by with_unfolding_all decide)
  | some r =>
    have h := (claim4.1 "a" "a" [⟨"a", 0, 1⟩] r hrep).1
    show some r.scores.accuracy_score = some 10
    rw [h]
    with_unfolding_all decide

/-- Claim C10: the per-word detail list has exactly one entry per alignment
record whose expected token is present — hence exactly one per reference
token — while pure insertions produce no detail entry and are counted only
by the extra-words list. -/
theorem claim10 (oT tT : String) (ws : List ASRWord) (r : RecitationAnalysis)
    (h : computeReport oT tT ws = some r) :
    r.word_details.length =
      (alignWords (preprocessText oT).processed_words
        (preprocessText tT).processed_words ws).countP
          (fun x => x.expected_word != "") ∧
    (alignWords (preprocessText oT).processed_words
        (preprocessText tT).processed_words ws).countP
          (fun x => x.expected_word != "") =
      (preprocessText oT).processed_words.length ∧
    r.word_details.length +
      (alignWords (preprocessText oT).processed_words
        (preprocessText tT).processed_words ws).countP isInsB =
      (alignWords (preprocessText oT).processed_words
        (preprocessText tT).processed_words ws).length ∧
    r.extra_words.length =
      (alignWords (preprocessText oT).processed_words
        (preprocessText tT).processed_words ws).countP isInsB := by
  have he := preprocess_no_empty oT
  have ha := preprocess_no_empty tT
  have hmem := alignWords_mem (preprocessText oT).processed_words
    (preprocessText tT).processed_words ws
  have hor : ∀ x ∈ alignWords (preprocessText oT).processed_words
      (preprocessText tT).processed_words ws,
      x.expected_word ≠ "" ∨ x.actual_word ≠ "" :=
    fun x hx => ((hmem x hx).2.2.2) he ha
  cases hf : calcFluencyScore ws with
  | none =>
    rw [computeReport_none oT tT ws hf] at h
    exact absurd h (by simp)
  | some f =>
    rw [computeReport_some oT tT ws hf] at h
    simp only [Option.some.injEq] at h
    subst h
    have hd : ((alignWords (preprocessText oT).processed_words
        (preprocessText tT).processed_words ws).filterMap
          (mkWordDetail (preprocessText oT) (preprocessText tT))).length =
        (alignWords (preprocessText oT).processed_words
          (preprocessText tT).processed_words ws).countP
            (fun x => x.expected_word != "") := by
      rw [length_filterMap_eq_countP]
      apply List.countP_congr
      intro x _
      rw [mkWordDetail_isSome]
    have hx : ((alignWords (preprocessText oT).processed_words
        (preprocessText tT).processed_words ws).filterMap (fun x =>
          if isInsB x then
            some (dGet (preprocessText tT).original_mapping x.actual_word x.actual_word)
          else none)).length =
        (alignWords (preprocessText oT).processed_words
          (preprocessText tT).processed_words ws).countP isInsB := by
      rw [length_filterMap_eq_countP]
      apply List.countP_congr
      intro x _
      by_cases hi : isInsB x = true <;> simp [hi]
    have hsplit := countP_length_split _ hor
    have hexp := align_countP_exp (preprocessText oT).processed_words
      (preprocessText tT).processed_words ws he ha
    refine ⟨hd, hexp, ?_, hx⟩
    show ((alignWords (preprocessText oT).processed_words
        (preprocessText tT).processed_words ws).filterMap
          (mkWordDetail (preprocessText oT) (preprocessText tT))).length +
        (alignWords (preprocessText oT).processed_words
          (preprocessText tT).processed_words ws).countP isInsB =
        (alignWords (preprocessText oT).processed_words
          (preprocessText tT).processed_words ws).length
    omega

theorem claim10_witness :
    (computeReport "a b" "x" [⟨"x", 0, 1⟩]).map
      (fun r => (r.word_details.length, r.extra_words.length)) = some (2, 0) := by
  cases hrep : computeReport "a b" "x" [⟨"x", 0, 1⟩] with
  | none => exact absurd hrep (by with_unfolding_all decide)
  | some r =>
    have h := claim10 "a b" "x" [⟨"x", 0, 1⟩] r hrep
    show some (r.word_details.length, r.extra_words.length) = some (2, 0)
    rw [h.1, h.2.2.2]
    with_unfolding_all decide

/-- Claim C1 (amended): when the recognized word list is empty, or its last
last word ends at a time different from the time its first word starts (otherwise the
fluency computation divides by zero and the analysis raises), the report is
produced and all four reported scores lie in `[0, 10]`. -/
theorem claim1 (oT tT : String) (ws : List ASRWord)
    (h : ws = [] ∨ (ws.getLastD ⟨"", 0, 0⟩).stop ≠ (ws.headD ⟨"", 0, 0⟩).start) :
    ∃ r, computeReport oT tT ws = some r ∧
      0 ≤ r.scores.accuracy_score ∧ r.scores.accuracy_score ≤ 10 ∧
      0 ≤ r.scores.pronunciation_score ∧ r.scores.pronunciation_score ≤ 10 ∧
      0 ≤ r.scores.fluency_score ∧ r.scores.fluency_score ≤ 10 ∧
      0 ≤ r.scores.overall_score ∧ r.scores.overall_score ≤ 10 := by
  obtain ⟨f, hf⟩ := calcFluencyScore_isSome ws h
  have he := preprocess_no_empty oT
  have ha := preprocess_no_empty tT
  have hmem := alignWords_mem (preprocessText oT).processed_words
    (preprocessText tT).processed_words ws
  have hcle : (alignWords (preprocessText oT).processed_words
      (preprocessText tT).processed_words ws).countP (fun x => x.is_match) ≤
      (alignWords (preprocessText oT).processed_words
        (preprocessText tT).processed_words ws).countP
          (fun x => x.expected_word != "") := by
    apply List.countP_mono_left
    intro x hx hm
    have hne := ((hmem x hx).2.2.1) he hm
    simpa using hne
  have hexp := align_countP_exp (preprocessText oT).processed_words
    (preprocessText tT).processed_words ws he ha
  have hcN : ((alignWords (preprocessText oT).processed_words
      (preprocessText tT).processed_words ws).filter (fun r => r.is_match)).length ≤
      (preprocessText oT).processed_words.length := by
    rw [← List.countP_eq_length_filter _ _]
    omega
  have hwa : 0 ≤ (if 0 < (preprocessText oT).processed_words.length then
        ((((alignWords (preprocessText oT).processed_words
          (preprocessText tT).processed_words ws).filter
            (fun r => r.is_match)).length : ℚ) /
          ((preprocessText oT).processed_words.length : ℚ)) * 100 else 0) ∧
      (if 0 < (preprocessText oT).processed_words.length then
        ((((alignWords (preprocessText oT).processed_words
          (preprocessText tT).processed_words ws).filter
            (fun r => r.is_match)).length : ℚ) /
          ((preprocessText oT).processed_words.length : ℚ)) * 100 else 0) ≤ 100 := by
    split
    · next hN =>
      have hNq : (0 : ℚ) < ((preprocessText oT).processed_words.length : ℚ) := by
        exact_mod_cast hN
      have hle1 : (((alignWords (preprocessText oT).processed_words
          (preprocessText tT).processed_words ws).filter
            (fun r => r.is_match)).length : ℚ) /
          ((preprocessText oT).processed_words.length : ℚ) ≤ 1 := by
        rw [div_le_one hNq]
        exact_mod_cast hcN
      constructor
      · positivity
      · linarith
    · norm_num
  have hacc : 0 ≤ (if 0 < (preprocessText oT).processed_words.length then
        ((((alignWords (preprocessText oT).processed_words
          (preprocessText tT).processed_words ws).filter
            (fun r => r.is_match)).length : ℚ) /
          ((preprocessText oT).processed_words.length : ℚ)) * 100 else 0) / 10 ∧
      (if 0 < (preprocessText oT).processed_words.length then
        ((((alignWords (preprocessText oT).processed_words
          (preprocessText tT).processed_words ws).filter
            (fun r => r.is_match)).length : ℚ) /
          ((preprocessText oT).processed_words.length : ℚ)) * 100 else 0) / 10 ≤ 10 := by
    obtain ⟨hw0, hw1⟩ := hwa
    constructor
    · positivity
    · linarith
  have hpron := calcPronunciationScore_mem (alignWords
    (preprocessText oT).processed_words (preprocessText tT).processed_words ws)
    (fun x hx => (hmem x hx).1)
  have hflu := calcFluencyScore_mem ws hf
  have hov : 0 ≤ calcPronunciationScore (alignWords
        (preprocessText oT).processed_words (preprocessText tT).processed_words ws) *
        pronunciationAccuracyWeight + f * fluencyWeight +
        ((if 0 < (preprocessText oT).processed_words.length then
          ((((alignWords (preprocessText oT).processed_words
            (preprocessText tT).processed_words ws).filter
              (fun r => r.is_match)).length : ℚ) /
            ((preprocessText oT).processed_words.length : ℚ)) * 100 else 0) / 10) *
          accuracyWeight ∧
      calcPronunciationScore (alignWords
        (preprocessText oT).processed_words (preprocessText tT).processed_words ws) *
        pronunciationAccuracyWeight + f * fluencyWeight +
        ((if 0 < (preprocessText oT).processed_words.length then
          ((((alignWords (preprocessText oT).processed_words
            (preprocessText tT).processed_words ws).filter
              (fun r => r.is_match)).length : ℚ) /
            ((preprocessText oT).processed_words.length : ℚ)) * 100 else 0) / 10) *
          accuracyWeight ≤ 10 := by
    simp only [pronunciationAccuracyWeight, fluencyWeight, accuracyWeight]
    obtain ⟨hp0, hp1⟩ := hpron
    obtain ⟨hf0, hf1⟩ := hflu
    obtain ⟨ha0, ha1⟩ := hacc
    constructor
    · positivity
    · nlinarith
  refine ⟨_, computeReport_some oT tT ws hf, ?_, ?_, ?_, ?_, ?_, ?_, ?_, ?_⟩
  · exact (round2_mem hacc.1 hacc.2).1
  · exact (round2_mem hacc.1 hacc.2).2
  · exact (round2_mem hpron.1 hpron.2).1
  · exact (round2_mem hpron.1 hpron.2).2
  · exact (round2_mem hflu.1 hflu.2).1
  · exact (round2_mem hflu.1 hflu.2).2
  · exact (round2_mem hov.1 hov.2).1
  · exact (round2_mem hov.1 hov.2).2

/-- Claim C1, counterexample to the original statement: a single recognized
word whose start and end coincide makes the fluency computation divide by
zero, so no report is produced at all. -/
theorem claim1_counterexample :
    computeReport "a" "a" [⟨"a", 1, 1⟩] = none := by
  with_unfolding_all decide

theorem claim1_witness :
    ∃ r, computeReport "a" "a" [] = some r ∧
      0 ≤ r.scores.accuracy_score ∧ r.scores.accuracy_score ≤ 10 ∧
      0 ≤ r.scores.pronunciation_score ∧ r.scores.pronunciation_score ≤ 10 ∧
      0 ≤ r.scores.fluency_score ∧ r.scores.fluency_score ≤ 10 ∧
      0 ≤ r.scores.overall_score ∧ r.scores.overall_score ≤ 10 :=
  claim1 "a" "a" [] (Or.inl rfl)

/-- Claim C8 (amended): with zero recognized timestamped words, the report
is produced and its fluency score is exactly `5`, regardless of the other
inputs; and with zero reference tokens, provided the recognized word list
is empty or spans a nonzero time (otherwise the fluency computation
divides by zero and no report is produced), the report is produced with
accuracy `0` and `word_count` `0`. -/
theorem claim8 :
    (∀ oT tT : String, ∃ r, computeReport oT tT [] = some r ∧
      r.scores.fluency_score = 5) ∧
    (∀ (oT tT : String) (ws : List ASRWord),
      (preprocessText oT).processed_words = [] →
      (ws = [] ∨ (ws.getLastD ⟨"", 0, 0⟩).stop ≠ (ws.headD ⟨"", 0, 0⟩).start) →
      ∃ r, computeReport oT tT ws = some r ∧
        r.scores.accuracy_score = 0 ∧ r.word_count = 0) := by
  constructor
  · intro oT tT
    refine ⟨_, computeReport_some oT tT [] rfl, ?_⟩
    show round2 5 = 5
    with_unfolding_all decide
  · intro oT tT ws h0 hsp
    obtain ⟨f, hf⟩ := calcFluencyScore_isSome ws hsp
    have hl : (preprocessText oT).processed_words.length = 0 := by
      rw [h0]
      rfl
    refine ⟨_, computeReport_some oT tT ws hf, ?_, ?_⟩
    · show round2 ((if 0 < (preprocessText oT).processed_words.length then
          ((((alignWords (preprocessText oT).processed_words
            (preprocessText tT).processed_words ws).filter
              (fun r => r.is_match)).length : ℚ) /
            ((preprocessText oT).processed_words.length : ℚ)) * 100 else 0) / 10) = 0
      rw [hl]
      norm_num [round2_zero]
    · exact hl

/-- Claim C8, counterexample to the original statement: an analysis with
zero reference tokens still fails to produce a report when the recognized
word list spans zero time. -/
theorem claim8_counterexample :
    (preprocessText "").processed_words = [] ∧
    computeReport "" "a" [⟨"a", 2, 2⟩] = none := by
  constructor <;> with_unfolding_all decide

theorem claim8_witness :
    (∃ r, computeReport "x" "y" [] = some r ∧ r.scores.fluency_score = 5) ∧
    ((preprocessText "").processed_words = [] ∧
      ∃ r, computeReport "" "z" [] = some r ∧
        r.scores.accuracy_score = 0 ∧ r.word_count = 0) :=
  ⟨claim8.1 "x" "y",
    ⟨by with_unfolding_all decide, claim8.2 "" "z" []
      (by with_unfolding_all decide) (Or.inl rfl)⟩⟩
